import Mathlib

/-!
Shallow embedding of the emotext emotion-extraction pipeline:
the graph search of apis/text.py, the interpolation and word cache of
models/models.py, and the message clustering of models/persistence.py.

Modelling conventions, used throughout:
* Python numbers (emotion scores, edge weights) are rationals.
* A Python dictionary is an association list with unique keys; reads and
  writes go through assocGet / assocSet below.
* The remote ConceptNet service is a function from concept names to an
  optional lookup result (the name suffices because the search fixes the
  concept type to 'c' and the language code).
* A Python function that can raise is embedded into Option / Except, with
  the exceptional outcome as the error value; a try/except that swallows
  the error is translated by the caller matching on that value.
* MAX_DEPTH, MIN_WEIGHT and TOLERANCE_TIME come from config.cfg, which is
  not part of the sources; they are passed as explicit parameters.
-/

namespace Emotext

/-- Python dictionary read: the value of the first entry with the given
key (a Python dict holds each key once), or none for a missing key. -/
def assocGet {α : Type} : List (String × α) → String → Option α
  | [], _ => none
  | p :: rest, k => if p.1 == k then some p.2 else assocGet rest k

/-- Python dictionary write: overwrite the entry holding the key in place
(keeping its position), append a new entry otherwise. -/
def assocSet {α : Type} : List (String × α) → String → α → List (String × α)
  | [], k, v => [(k, v)]
  | p :: rest, k, v =>
    if p.1 == k then (k, v) :: rest else p :: assocSet rest k v

/-- An emotion vector: the 'emotions' dictionary built by apis/text.py,
mapping emotion labels to scores. -/
abbrev EmoVec := List (String × ℚ)

/-- The EMOTIONS constant of apis/text.py (a Python set literal; the
duplicated entries of the literal collapse, leaving these 21 labels). -/
def EMOTIONS : List String :=
  ["love", "anger", "fear", "hate", "happiness", "pleasant", "sadness",
   "pity", "shame", "ecstasy", "boredom", "cry", "happy", "jealousy",
   "joy", "surprise", "regret", "frustration", "sorrow", "melancholy", "awe"]

/-- The Node class of models/models.py, restricted to the fields the graph
search reads: name, weight and the owning parent.  A root node is built by
text_to_emotion as Node(t, lang_code, 'c'), so its weight is the class
default 0 and its parent is None.  The rel / type / lang_code / edges
fields are carried only between edge_lookup and build_graph and are
represented by edge_lookup returning the freshly built child nodes. -/
inductive PNode : Type where
  | root (name : String)
  | node (name : String) (weight : ℚ) (parent : PNode)
deriving DecidableEq, Repr

/-- The name attribute of a Node. -/
def PNode.name : PNode → String
  | .root n => n
  | .node n _ _ => n

/-- The weight attribute of a Node (0 for a root, the class default). -/
def PNode.weight : PNode → ℚ
  | .root _ => 0
  | .node _ w _ => w

/-- The enumerate loop of calc_nodes_weight in apis/text.py:
weight_num = weight_num + n * 1/(i+1) over the collected weights list,
starting at index i. -/
def weightedSum : List ℚ → ℕ → ℚ
  | [], _ => 0
  | n :: rest, i => n * (1 / (i + 1 : ℚ)) + weightedSum rest (i + 1)

/-- calc_nodes_weight of apis/text.py: walk the parent chain, appending
each visited node's weight (the root's own weight is never appended,
because the recursion stops when parent is None), then combine the
collected list with the 1/(i+1) decay loop. -/
def calc_nodes_weight : PNode → String → List ℚ → ℚ → ℚ
  | .root _, _, weights, weight_num => weight_num + weightedSum weights 0
  | .node _ w p, emotion, weights, weight_num =>
      calc_nodes_weight p emotion (weights ++ [w]) weight_num

/-- One edge of a ConceptNet lookup result, after the slash-path
extraction of utils.extr_from_concept_net_edge: a start concept, an end
concept (name and language code each), a relation label and a weight. -/
structure CNEdge where
  startName : String
  startLang : String
  endName : String
  endLang : String
  rel : String
  weight : ℚ
deriving DecidableEq, Repr

/-- The body of a successful ConceptNet lookup: numFound and the edges. -/
structure LookupResult where
  numFound : ℤ
  edges : List CNEdge
deriving DecidableEq, Repr

/-- The remote ConceptNet service, keyed by concept name; none models a
failed request. -/
abbrev Lookup := String → Option LookupResult

/-- Node.edge_lookup of models/models.py.  none models the two raise
sites: a lookup that returned None / zero edges raises, and build_graph
catches that exception.  For each edge, the end concept is taken unless it
names the node itself (then the start concept is taken); the candidate is
kept when its name is not already used and its language code matches. -/
def edge_lookup (lookup : Lookup) (self : PNode) (used_names : List String)
    (lang_code : String) : Option (List PNode) :=
  match lookup self.name with
  | none => none
  | some token_res =>
    if 0 < token_res.numFound then
      some (token_res.edges.filterMap (fun e =>
        if e.endName ≠ self.name then
          if e.endName ∉ used_names ∧ e.endLang = lang_code then
            some (PNode.node e.endName e.weight self)
          else none
        else
          if e.startName ∉ used_names ∧ e.startLang = lang_code then
            some (PNode.node e.startName e.weight self)
          else none))
    else none

/-- Whether edge_lookup on this name must raise: the request failed, or it
found no connecting edges. -/
def lookup_failed (lookup : Lookup) (name : String) : Bool :=
  match lookup name with
  | none => true
  | some token_res => decide (token_res.numFound ≤ 0)

/-- The mutable state of one round of build_graph: token_queue_copy being
rebuilt, the used_names set, and the emotions dictionary. -/
structure StepAcc where
  copy : List PNode
  used : List String
  emo : EmoVec
deriving DecidableEq, Repr

/-- The try/except accumulation of build_graph: add w to the entry for k,
treating a missing key (KeyError) as a fresh entry. -/
def dictAddWeight (d : EmoVec) (k : String) (w : ℚ) : EmoVec :=
  match assocGet d k with
  | some v => assocSet d k (v + w)
  | none => assocSet d k w

/-- The inner edge loop of build_graph: admit every returned edge whose
name is not yet used and whose weight strictly exceeds MIN_WEIGHT,
recording the name in used_names as it is admitted. -/
def admitEdges (minWeight : ℚ) : List PNode → StepAcc → StepAcc
  | [], acc => acc
  | e :: rest, acc =>
    if e.name ∉ acc.used ∧ minWeight < e.weight then
      admitEdges minWeight rest
        { acc with used := acc.used ++ [e.name], copy := acc.copy ++ [e] }
    else admitEdges minWeight rest acc

/-- The body of build_graph's for-loop for one frontier token.  An
emotion-labelled token accumulates its chain weight and stays in
token_queue_copy (only the else branch removes it); any other token is
removed and, unless its edge_lookup raises, its admissible edges join the
copy.  build_graph hardcodes the language code 'en' for the lookup. -/
def processToken (lookup : Lookup) (minWeight : ℚ) (acc : StepAcc)
    (token : PNode) : StepAcc :=
  if token.name ∈ EMOTIONS then
    { acc with
        copy := acc.copy ++ [token],
        emo := dictAddWeight acc.emo token.name
                 (calc_nodes_weight token token.name [] 0) }
  else
    match edge_lookup lookup token acc.used "en" with
    | none => acc
    | some edges => admitEdges minWeight edges acc

/-- The for-loop of one build_graph round, token by token. -/
def build_graph_round_aux (lookup : Lookup) (minWeight : ℚ) :
    List PNode → StepAcc → StepAcc
  | [], acc => acc
  | token :: rest, acc =>
    build_graph_round_aux lookup minWeight rest (processToken lookup minWeight acc token)

/-- One round of build_graph: the for-loop over the frontier, starting
from a copy that collects the surviving and newly admitted tokens. -/
def build_graph_round (lookup : Lookup) (minWeight : ℚ)
    (token_queue : List PNode) (used_names : List String) (emo : EmoVec) :
    StepAcc :=
  build_graph_round_aux lookup minWeight token_queue ⟨[], used_names, emo⟩

/-- calc_percentages of apis/text.py: divide each nonzero entry by the sum
of all values.  (Rational division is total; Python would raise
ZeroDivisionError when the sum is 0 while a nonzero entry exists, a case
none of the uses below reach.) -/
def calc_percentages (emotions : EmoVec) : EmoVec :=
  let sum_values := (emotions.map (fun p => p.2)).sum
  (emotions.filter (fun p => p.2 != 0)).map (fun p => (p.1, p.2 / sum_values))

/-- The recursion of build_graph, driven by the number of rounds still to
run (MAX_DEPTH - depth), which makes it structural. -/
def build_graph_aux (lookup : Lookup) (minWeight : ℚ) :
    ℕ → List PNode → List String → EmoVec → EmoVec
  | 0, _, _, emo => calc_percentages emo
  | fuel + 1, token_queue, used_names, emo =>
    let acc := build_graph_round lookup minWeight token_queue used_names emo
    build_graph_aux lookup minWeight fuel acc.copy acc.used acc.emo

/-- build_graph of apis/text.py.  The source tests depth >= MAX_DEPTH and
recurses with depth + 1; the returned emo_vector's constant 'name' field
is inert and omitted, leaving the 'emotions' dictionary. -/
def build_graph (lookup : Lookup) (maxDepth : ℕ) (minWeight : ℚ)
    (token_queue : List PNode) (used_names : List String) (emo : EmoVec)
    (depth : ℕ) : EmoVec :=
  build_graph_aux lookup minWeight (maxDepth - depth) token_queue used_names emo

/-- text_to_emotion of apis/text.py: reject an empty token list, else run
build_graph per token from a fresh root node, an EMPTY used_names set and
an empty emotions dictionary at depth 0. -/
def text_to_emotion (lookup : Lookup) (maxDepth : ℕ) (minWeight : ℚ)
    (token_list : List String) : Except String (List EmoVec) :=
  if token_list.length < 1 then
    .error "The token_list must contain at least one word."
  else
    .ok (token_list.map (fun t =>
      build_graph lookup maxDepth minWeight [PNode.root t] [] [] 0))

/-- The weights met on the parent chain, from the given node up to but
excluding the root — exactly the list calc_nodes_weight collects. -/
def chainToRoot : PNode → List ℚ
  | .root _ => []
  | .node _ w p => w :: chainToRoot p

/-- Decayed chain sum with rank counted from the discovered node upward:
entry i of the chain contributes weight * 1/(i+1). -/
def decaySum (ws : List ℚ) : ℚ :=
  ((List.range ws.length).map (fun i => ws.getD i 0 * (1 / (i + 1 : ℚ)))).sum

/-- The weight formula as the specification words it: each ancestor at
rank = distance-from-root index contributes ancestorWeight * 1/(rank+1).
The chain read from the root outward puts the node at distance i+1 from
the root at position i, so its factor is 1/(i+2).  (Including the root
itself at rank 0 would only add the root's constant weight 0.) -/
def spec_rank_weight (n : PNode) : ℚ :=
  ((List.range (chainToRoot n).reverse.length).map
    (fun i => (chainToRoot n).reverse.getD i 0 * (1 / (i + 2 : ℚ)))).sum

/-! ## Interpolation (Conversation of models/models.py) -/

/-- The keys of an emotion vector. -/
def keysOf (d : EmoVec) : List String := d.map (fun p => p.1)

/-- Read a label's score, defaulting a missing key to 0 — the guarded
"if e in vector" reads of interpolate_e_vector. -/
def getOr0 (d : EmoVec) (k : String) : ℚ := (assocGet d k).getD 0

/-- Conversation.interpolate_e_vector of models/models.py: for every key
of the union of the three vectors, overwrite middle[e] with the average of
the three scores (missing keys read as 0).  The middle vector is mutated
in place, so the middle score is read from the evolving vector; as each
key is written exactly once, that read still sees the original score. -/
def interpolate_e_vector (left middle right : EmoVec) : EmoVec :=
  let emotions := (keysOf left ++ keysOf middle ++ keysOf right).dedup
  emotions.foldl (fun mid e =>
    assocSet mid e ((getOr0 left e + getOr0 mid e + getOr0 right e) / 3)) middle

/-- One iteration of Conversation.word_interpolation's loop, on the state
(current words array, output list).  prev is words[i-1] (so words[-1],
the last element, when i = 0) and next is words[0] for the last index,
words[i+1] otherwise — read from the CURRENT array, whose earlier entries
have already been smoothed in place.  The is-not-None guard of the source
always holds and is dropped. -/
def interpolationStep (state : List EmoVec × List EmoVec) (i : ℕ) :
    List EmoVec × List EmoVec :=
  let words := state.1
  let prev_w := if i = 0 then words.getLastD [] else words.getD (i - 1) []
  let next_w := if i = words.length - 1 then words.getD 0 []
                else words.getD (i + 1) []
  let interpolated_w := interpolate_e_vector prev_w (words.getD i []) next_w
  (words.set i interpolated_w, state.2 ++ [interpolated_w])

/-- Conversation.word_interpolation of models/models.py, on the ordered
list of per-message emotion vectors. -/
def word_interpolation (words : List EmoVec) : List EmoVec :=
  ((List.range words.length).foldl interpolationStep (words, [])).2

/-! ## Word cache (CacheController of models/models.py) -/

/-- CacheController.add_word: an unconditional shelve write (the unused
word.encode call is dropped). -/
def add_word (cache : List (String × EmoVec)) (word : String)
    (emotions : EmoVec) : List (String × EmoVec) :=
  assocSet cache word emotions

/-- CacheController.fetch_word: a shelve read whose KeyError is caught and
turned into None. -/
def fetch_word (cache : List (String × EmoVec)) (word : String) :
    Option EmoVec :=
  assocGet cache word

/-! ## Message clustering (MessageCluster of models/persistence.py) -/

/-- The Message class of models/models.py, restricted to the fields the
clusterer stores (date and language play no role in clustering). -/
structure Message where
  entity_name : String
  text : String
deriving DecidableEq, Repr

/-- An argument handed to MessageCluster.add_message: either a Message
instance or any other value (isinstance fails). -/
inductive ClusterInput where
  | msg (m : Message)
  | other (desc : String)
deriving DecidableEq, Repr

/-- The shelve database of a MessageCluster: the 'messages' key (absent
reads as the empty list, exactly what get_messages returns) and the
'future_time' expiry key (absent = none).  Times are integers. -/
structure ClusterDB where
  messages : List Message
  future_time : Option ℤ
deriving DecidableEq, Repr

/-- MessageCluster.is_conversation_over: True when the stored expiry is
strictly before now, or when no expiry was ever stored (the KeyError
branch). -/
def is_conversation_over (db : ClusterDB) (now : ℤ) : Bool :=
  match db.future_time with
  | some tolerance_time => decide (tolerance_time < now)
  | none => true

/-- MessageCluster.start_tolerance: expiry := now + tolerance_time. -/
def start_tolerance (db : ClusterDB) (now : ℤ) (tolerance_time : ℤ) :
    ClusterDB :=
  { db with future_time := some (now + tolerance_time) }

/-- MessageCluster.add_message.  A non-Message argument raises (the
Except.error) with the database untouched.  For a Message: when the
conversation is over, the old message list is sealed into a Conversation
when nonempty (the first component of the result observes that object),
the database is reset and restarted with just the new message; otherwise
the message is appended.  Both branches then renew the expiry. -/
def add_message (tolerance_time : ℤ) (db : ClusterDB) (now : ℤ)
    (input : ClusterInput) : Except String (Option (List Message) × ClusterDB) :=
  match input with
  | .msg m =>
    if is_conversation_over db now then
      let sealed := if 0 < db.messages.length then some db.messages else none
      .ok (sealed,
        start_tolerance { messages := [m], future_time := none } now tolerance_time)
    else
      .ok (none,
        start_tolerance { db with messages := db.messages ++ [m] } now tolerance_time)
  | .other _ =>
    .error "Only messages of type emotext.models.models.Message can be added."



/-! ## Dictionary lemmas -/

/-- Writing a key and reading it back yields the written value. -/
theorem assocGet_assocSet_self {α : Type} (d : List (String × α)) (k : String)
    (v : α) : assocGet (assocSet d k v) k = some v := by
  induction d with
  | nil => simp [assocGet, assocSet]
  | cons p rest ih =>
    by_cases hpk : (p.1 == k) = true
    · simp [assocGet, assocSet, hpk]
    · simp [assocGet, assocSet, hpk, ih]

/-- Reading an absent key yields none. -/
theorem assocGet_of_not_mem_keys {α : Type} (d : List (String × α))
    (k : String) (h : k ∉ d.map Prod.fst) : assocGet d k = none := by
  induction d with
  | nil => rfl
  | cons p rest ih =>
    simp only [List.map_cons, List.mem_cons, not_or] at h
    have hpk : (p.1 == k) = false := beq_eq_false_iff_ne.mpr (fun e => h.1 e.symm)
    simp only [assocGet, hpk, Bool.false_eq_true, if_false]
    exact ih h.2

/-- Every entry of an updated dictionary is an old entry or the written
pair. -/
theorem mem_assocSet {α : Type} {d : List (String × α)} {k : String} {v : α}
    {p : String × α} (h : p ∈ assocSet d k v) : p ∈ d ∨ p = (k, v) := by
  induction d with
  | nil => right; simpa [assocSet] using h
  | cons q rest ih =>
    by_cases hqk : (q.1 == k) = true
    · simp only [assocSet, hqk, if_true] at h
      rcases List.mem_cons.mp h with h | h
      · right; exact h
      · left; exact List.mem_cons_of_mem q h
    · simp only [assocSet, hqk, Bool.false_eq_true, if_false] at h
      rcases List.mem_cons.mp h with h | h
      · left; exact h ▸ List.mem_cons_self q rest
      · rcases ih h with h | h
        · left; exact List.mem_cons_of_mem q h
        · right; exact h

/-- A found value comes from an entry of the dictionary. -/
theorem exists_mem_of_assocGet_eq_some {α : Type} {d : List (String × α)}
    {k : String} {v : α} (h : assocGet d k = some v) :
    ∃ p ∈ d, p.2 = v := by
  induction d with
  | nil => simp [assocGet] at h
  | cons p rest ih =>
    by_cases hpk : (p.1 == k) = true
    · simp only [assocGet, hpk, if_true, Option.some.injEq] at h
      exact ⟨p, List.mem_cons_self p rest, h⟩
    · simp only [assocGet, hpk, Bool.false_eq_true, if_false] at h
      obtain ⟨q, hq, h2⟩ := ih h
      exact ⟨q, List.mem_cons_of_mem p hq, h2⟩

/-- Re-writing the value a key already holds leaves the dictionary
unchanged. -/
theorem assocSet_eq_self {α : Type} {d : List (String × α)} {k : String}
    {v : α} (h : assocGet d k = some v) : assocSet d k v = d := by
  induction d with
  | nil => simp [assocGet] at h
  | cons p rest ih =>
    by_cases hpk : (p.1 == k) = true
    · simp only [assocGet, hpk, if_true, Option.some.injEq] at h
      have hk : p.1 = k := eq_of_beq hpk
      simp [assocSet, hpk, ← hk, ← h]
    · simp only [assocGet, hpk, Bool.false_eq_true, if_false] at h
      simp [assocSet, hpk, ih h]

/-- Accumulating into a label reads back as the old value (0 when absent)
plus the added weight. -/
theorem assocGet_dictAddWeight_self (d : EmoVec) (k : String) (w : ℚ) :
    assocGet (dictAddWeight d k w) k = some ((assocGet d k).getD 0 + w) := by
  unfold dictAddWeight
  cases h : assocGet d k with
  | none => simp [assocGet_assocSet_self]
  | some v => simp [assocGet_assocSet_self]

/-- Division distributes over a list sum. -/
theorem sum_map_div (xs : List ℚ) (s : ℚ) :
    (xs.map (fun x => x / s)).sum = xs.sum / s := by
  induction xs with
  | nil => simp
  | cons x rest ih => simp [ih, add_div]


end Emotext
namespace Emotext

/-! ## The decayed chain weight (calc_nodes_weight) -/

/-- calc_nodes_weight collects exactly the chain of weights up to the
root behind the weights it was handed. -/
theorem calc_nodes_weight_eq (n : PNode) (e : String) (ws : List ℚ) (wn : ℚ) :
    calc_nodes_weight n e ws wn = wn + weightedSum (ws ++ chainToRoot n) 0 := by
  induction n generalizing ws with
  | root name => simp [calc_nodes_weight, chainToRoot]
  | node name w p ih =>
    rw [calc_nodes_weight, ih (ws ++ [w]), chainToRoot, List.append_assoc,
      List.singleton_append]

/-- The enumerate loop is the decayed sum with all ranks shifted by the
starting index. -/
theorem weightedSum_eq (ws : List ℚ) (k : ℕ) :
    weightedSum ws k =
      ((List.range ws.length).map
        (fun i => ws.getD i 0 * (1 / ((i : ℚ) + (k : ℚ) + 1)))).sum := by
  induction ws generalizing k with
  | nil => simp [weightedSum]
  | cons w rest ih =>
    rw [weightedSum, ih (k + 1), List.length_cons, List.range_succ_eq_map]
    simp only [List.map_cons, List.map_map, List.sum_cons, Function.comp]
    congr 1
    · simp
    · refine congrArg List.sum (List.map_congr_left (fun i _ => ?_))
      simp only [Function.comp_apply, List.getD_cons_succ]
      push_cast
      ring

/-- calc_nodes_weight on a freshly discovered node is the decayed sum of
its chain, ranks counted from the node itself. -/
theorem calc_nodes_weight_decay (n : PNode) (e : String) :
    calc_nodes_weight n e [] 0 = decaySum (chainToRoot n) := by
  rw [calc_nodes_weight_eq, List.nil_append, weightedSum_eq, decaySum]
  simp

end Emotext
namespace Emotext

/-! ## build_graph round and recursion lemmas -/

/-- The fuel-driven recursion agrees with the source's depth test:
build_graph returns the normalized vector once depth reaches MAX_DEPTH and
otherwise runs one round and recurses at depth + 1. -/
theorem build_graph_eq_source_recursion (lookup : Lookup) (maxDepth : ℕ)
    (minWeight : ℚ) (token_queue : List PNode) (used_names : List String)
    (emo : EmoVec) (depth : ℕ) :
    build_graph lookup maxDepth minWeight token_queue used_names emo depth =
      if maxDepth ≤ depth then calc_percentages emo
      else
        build_graph lookup maxDepth minWeight
          (build_graph_round lookup minWeight token_queue used_names emo).copy
          (build_graph_round lookup minWeight token_queue used_names emo).used
          (build_graph_round lookup minWeight token_queue used_names emo).emo
          (depth + 1) := by
  by_cases h : maxDepth ≤ depth
  · rw [if_pos h]
    unfold build_graph
    rw [Nat.sub_eq_zero_of_le h]
    rfl
  · rw [if_neg h]
    unfold build_graph
    have : maxDepth - depth = (maxDepth - (depth + 1)) + 1 := by omega
    rw [this]
    rfl

/-- An all-zero emotions dictionary normalizes to the empty vector: the
nonzero filter drops every entry. -/
theorem calc_percentages_allzero (emo : EmoVec) (h : ∀ p ∈ emo, p.2 = 0) :
    calc_percentages emo = [] := by
  have hf : emo.filter (fun p => p.2 != 0) = [] := by
    rw [List.filter_eq_nil_iff]
    intro p hp
    simp [h p hp]
  simp [calc_percentages, hf]

/-- Adding weight 0 preserves an all-zero emotions dictionary. -/
theorem mem_dictAddWeight_zero {d : EmoVec} {k : String}
    (h : ∀ p ∈ d, p.2 = 0) : ∀ p ∈ dictAddWeight d k 0, p.2 = 0 := by
  intro p hp
  unfold dictAddWeight at hp
  cases hg : assocGet d k with
  | none =>
    rw [hg] at hp
    rcases mem_assocSet hp with h2 | h2
    · exact h p h2
    · rw [h2]
  | some v =>
    rw [hg] at hp
    rcases mem_assocSet hp with h2 | h2
    · exact h p h2
    · obtain ⟨q, hq, hqv⟩ := exists_mem_of_assocGet_eq_some hg
      rw [h2]
      simp [← hqv, h q hq]

/-- A round on a single emotion-labelled root keeps it in the frontier and
adds its (zero) chain weight to the vector. -/
theorem round_emotion_root {t : String} (ht : t ∈ EMOTIONS) (lookup : Lookup)
    (minW : ℚ) (used : List String) (emo : EmoVec) :
    build_graph_round lookup minW [PNode.root t] used emo =
      ⟨[PNode.root t], used, dictAddWeight emo t 0⟩ := by
  simp [build_graph_round, build_graph_round_aux, processToken, PNode.name,
    ht, calc_nodes_weight, weightedSum]

/-- Every round of a search rooted at an emotion-labelled token leaves the
vector all-zero, so the final normalization is empty. -/
theorem build_graph_aux_emotion_root {t : String} (ht : t ∈ EMOTIONS)
    (lookup : Lookup) (minW : ℚ) (fuel : ℕ) :
    ∀ (used : List String) (emo : EmoVec), (∀ p ∈ emo, p.2 = 0) →
      build_graph_aux lookup minW fuel [PNode.root t] used emo = [] := by
  induction fuel with
  | zero => intro used emo hz; exact calc_percentages_allzero emo hz
  | succ fuel ih =>
    intro used emo hz
    have step : build_graph_aux lookup minW (fuel + 1) [PNode.root t] used emo =
        build_graph_aux lookup minW fuel
          (build_graph_round lookup minW [PNode.root t] used emo).copy
          (build_graph_round lookup minW [PNode.root t] used emo).used
          (build_graph_round lookup minW [PNode.root t] used emo).emo := rfl
    rw [step, round_emotion_root ht]
    exact ih used (dictAddWeight emo t 0) (mem_dictAddWeight_zero hz)

/-! ## Failure pruning lemmas -/

/-- A failed or empty lookup makes edge_lookup raise, whatever the
used-names set and language code. -/
theorem edge_lookup_none_of_failed {lookup : Lookup} {x : PNode}
    (h : lookup_failed lookup x.name = true) (used : List String)
    (lang : String) : edge_lookup lookup x used lang = none := by
  unfold lookup_failed at h
  cases hl : lookup x.name with
  | none => simp [edge_lookup, hl]
  | some r =>
    rw [hl] at h
    simp only [decide_eq_true_eq] at h
    have : ¬ (0 < r.numFound) := by omega
    simp [edge_lookup, hl, this]

/-- A non-terminal frontier token whose lookup fails contributes nothing:
the round state passes through it unchanged. -/
theorem processToken_failed (lookup : Lookup) (minW : ℚ) (x : PNode)
    (hx : x.name ∉ EMOTIONS) (h : lookup_failed lookup x.name = true)
    (acc : StepAcc) : processToken lookup minW acc x = acc := by
  unfold processToken
  rw [if_neg hx, edge_lookup_none_of_failed h]

/-- With an empty frontier every remaining round is a no-op and the search
just normalizes the vector it has. -/
theorem build_graph_aux_empty (lookup : Lookup) (minW : ℚ) (fuel : ℕ) :
    ∀ (used : List String) (emo : EmoVec),
      build_graph_aux lookup minW fuel [] used emo = calc_percentages emo := by
  induction fuel with
  | zero => intro used emo; rfl
  | succ fuel ih => intro used emo; exact ih used emo

end Emotext
namespace Emotext

/-! ## Visited-set lemmas for the round -/

/-- Admitting edges only ever grows the used-names set. -/
theorem admitEdges_used_mono (minW : ℚ) (edges : List PNode) :
    ∀ acc : StepAcc, acc.used ⊆ (admitEdges minW edges acc).used := by
  induction edges with
  | nil => intro acc; exact List.Subset.refl _
  | cons e rest ih =>
    intro acc
    unfold admitEdges
    by_cases hc : e.name ∉ acc.used ∧ minW < e.weight
    · rw [if_pos hc]
      intro n hn
      exact ih _ (List.mem_append_left _ hn)
    · rw [if_neg hc]
      exact ih acc

/-- Any node the edge loop adds to the copy had an unrecorded name, and
that name is recorded by the time the loop returns. -/
theorem mem_admitEdges_copy (minW : ℚ) (edges : List PNode) :
    ∀ (acc : StepAcc) (node : PNode), node ∈ (admitEdges minW edges acc).copy →
      node ∈ acc.copy ∨
        (node.name ∉ acc.used ∧ node.name ∈ (admitEdges minW edges acc).used) := by
  induction edges with
  | nil => intro acc node h; exact Or.inl h
  | cons e rest ih =>
    intro acc node h
    unfold admitEdges at h ⊢
    by_cases hc : e.name ∉ acc.used ∧ minW < e.weight
    · rw [if_pos hc] at h ⊢
      rcases ih _ node h with h2 | h2
      · rcases List.mem_append.mp h2 with h3 | h3
        · exact Or.inl h3
        · right
          have he : node = e := by simpa using h3
          constructor
          · rw [he]; exact hc.1
          · rw [he]
            exact admitEdges_used_mono minW rest _
              (List.mem_append_right _ (List.mem_singleton_self _))
      · right
        refine ⟨fun hn => h2.1 (List.mem_append_left _ hn), h2.2⟩
    · rw [if_neg hc] at h ⊢
      exact ih acc node h

/-- Processing one token only ever grows the used-names set. -/
theorem processToken_used_mono (lookup : Lookup) (minW : ℚ) (acc : StepAcc)
    (t : PNode) : acc.used ⊆ (processToken lookup minW acc t).used := by
  unfold processToken
  by_cases ht : t.name ∈ EMOTIONS
  · rw [if_pos ht]
    exact List.Subset.refl _
  · rw [if_neg ht]
    cases edge_lookup lookup t acc.used "en" with
    | none => exact List.Subset.refl _
    | some edges => exact admitEdges_used_mono minW edges acc

/-- Any node processing one token adds to the copy is the token itself or
an admitted edge whose name was unrecorded and is recorded afterwards. -/
theorem mem_processToken_copy (lookup : Lookup) (minW : ℚ) (acc : StepAcc)
    (t : PNode) (node : PNode)
    (h : node ∈ (processToken lookup minW acc t).copy) :
    node ∈ acc.copy ∨ node = t ∨
      (node.name ∉ acc.used ∧
        node.name ∈ (processToken lookup minW acc t).used) := by
  unfold processToken at h ⊢
  by_cases ht : t.name ∈ EMOTIONS
  · rw [if_pos ht] at h ⊢
    rcases List.mem_append.mp h with h2 | h2
    · exact Or.inl h2
    · exact Or.inr (Or.inl (by simpa using h2))
  · rw [if_neg ht] at h ⊢
    cases hE : edge_lookup lookup t acc.used "en" with
    | none =>
      rw [hE] at h
      exact Or.inl h
    | some edges =>
      rw [hE] at h
      rcases mem_admitEdges_copy minW edges acc node h with h2 | h2
      · exact Or.inl h2
      · exact Or.inr (Or.inr h2)

/-- A whole round only ever grows the used-names set. -/
theorem round_aux_used_mono (lookup : Lookup) (minW : ℚ)
    (frontier : List PNode) :
    ∀ acc : StepAcc, acc.used ⊆ (build_graph_round_aux lookup minW frontier acc).used := by
  induction frontier with
  | nil => intro acc; exact List.Subset.refl _
  | cons t rest ih =>
    intro acc
    exact (processToken_used_mono lookup minW acc t).trans (ih _)

/-- Any node a round puts into the next frontier was already a frontier
token (an emotion-labelled survivor) or carries a name that was not yet in
the visited set and is in it when the round ends. -/
theorem round_aux_copy_char (lookup : Lookup) (minW : ℚ)
    (frontier : List PNode) :
    ∀ (acc : StepAcc) (node : PNode),
      node ∈ (build_graph_round_aux lookup minW frontier acc).copy →
      node ∈ acc.copy ∨ node ∈ frontier ∨
        (node.name ∉ acc.used ∧
          node.name ∈ (build_graph_round_aux lookup minW frontier acc).used) := by
  induction frontier with
  | nil => intro acc node h; exact Or.inl h
  | cons t rest ih =>
    intro acc node h
    rcases ih (processToken lookup minW acc t) node h with h2 | h2 | h2
    · rcases mem_processToken_copy lookup minW acc t node h2 with h3 | h3 | h3
      · exact Or.inl h3
      · exact Or.inr (Or.inl (h3 ▸ List.mem_cons_self t rest))
      · exact Or.inr (Or.inr ⟨h3.1, round_aux_used_mono lookup minW rest _ h3.2⟩)
    · exact Or.inr (Or.inl (List.mem_cons_of_mem t h2))
    · refine Or.inr (Or.inr ⟨?_, h2.2⟩)
      intro hn
      exact h2.1 (processToken_used_mono lookup minW acc t hn)

end Emotext
namespace Emotext

/-! ## Interpolation lemmas -/

/-- A key occurring in a dictionary is found by assocGet. -/
theorem assocGet_isSome_of_mem_keys {α : Type} {d : List (String × α)}
    {k : String} (h : k ∈ d.map Prod.fst) : (assocGet d k).isSome = true := by
  induction d with
  | nil => simp at h
  | cons p rest ih =>
    by_cases hpk : (p.1 == k) = true
    · simp [assocGet, hpk]
    · simp only [List.map_cons, List.mem_cons] at h
      rcases h with h | h
      · exact absurd (beq_iff_eq.mpr h.symm) (by simpa using hpk)
      · simp only [assocGet, hpk, Bool.false_eq_true, if_false]
        exact ih h

/-- Averaging a vector with itself writes every key back unchanged. -/
theorem fold_avg_self (v : EmoVec) :
    ∀ ks : List String, (∀ e ∈ ks, e ∈ keysOf v) →
      ks.foldl (fun mid e =>
        assocSet mid e ((getOr0 v e + getOr0 mid e + getOr0 v e) / 3)) v = v := by
  intro ks
  induction ks with
  | nil => intro _; rfl
  | cons e rest ih =>
    intro h
    have he : e ∈ keysOf v := h e (List.mem_cons_self e rest)
    obtain ⟨x, hx⟩ := Option.isSome_iff_exists.mp
      (assocGet_isSome_of_mem_keys (by simpa [keysOf] using he))
    have hget : getOr0 v e = x := by simp [getOr0, hx]
    have hone : assocSet v e ((getOr0 v e + getOr0 v e + getOr0 v e) / 3) = v := by
      rw [hget]
      have : (x + x + x) / 3 = x := by ring
      rw [this]
      exact assocSet_eq_self hx
    rw [List.foldl_cons, hone]
    exact ih (fun e' he' => h e' (List.mem_cons_of_mem e he'))

/-- interpolate_e_vector of a vector with itself on both sides is the
identity. -/
theorem interpolate_self (v : EmoVec) : interpolate_e_vector v v v = v := by
  unfold interpolate_e_vector
  apply fold_avg_self
  intro e he
  simp only [List.mem_dedup, List.mem_append] at he
  rcases he with (he | he) | he <;> exact he

/-- One interpolation iteration appends exactly one output vector. -/
theorem interpolationStep_len (st : List EmoVec × List EmoVec) (i : ℕ) :
    (interpolationStep st i).2.length = st.2.length + 1 := by
  simp [interpolationStep]

/-- The interpolation loop appends one output vector per index. -/
theorem foldl_interpolationStep_len (l : List ℕ) :
    ∀ st : List EmoVec × List EmoVec,
      ((l.foldl interpolationStep st).2).length = st.2.length + l.length := by
  induction l with
  | nil => intro st; simp
  | cons i rest ih =>
    intro st
    rw [List.foldl_cons, ih, interpolationStep_len, List.length_cons]
    omega

end Emotext
namespace Emotext

/-- Equality of embedded raise-or-return outcomes is decidable. -/
instance {ε α : Type} [DecidableEq ε] [DecidableEq α] :
    DecidableEq (Except ε α) := fun x y =>
  match x, y with
  | .error a, .error b => decidable_of_iff (a = b) (by simp)
  | .ok a, .ok b => decidable_of_iff (a = b) (by simp)
  | .error _, .ok _ => isFalse (fun h => Except.noConfusion h)
  | .ok _, .error _ => isFalse (fun h => Except.noConfusion h)

/-! ## Claim C1 -/

/-- C1, as stated, is false: for a token that is itself an emotion label
("joy"), build_graph on that single root node returns the EMPTY vector,
not a single entry at 1.0 — the root node's weight is 0, calc_nodes_weight
over its empty parent chain yields 0, and normalization drops zero
entries. -/
theorem C1_counterexample :
    build_graph (fun _ => none) 1 0 [PNode.root "joy"] [] [] 0 = [] ∧
    build_graph (fun _ => none) 1 0 [PNode.root "joy"] [] [] 0 ≠
      [("joy", 1)] := by
  constructor <;>
    norm_num [build_graph, build_graph_aux, build_graph_round,
      build_graph_round_aux, processToken, PNode.name, EMOTIONS,
      calc_nodes_weight, weightedSum, dictAddWeight, assocGet, assocSet,
      calc_percentages, List.filter]

/-- C1 amended: for every token that is a member of the emotion-label
set, the word-emotion computation (build_graph started on that single
root node) returns the empty vector, whatever the depth bound, weight
bound and remote graph. -/
theorem C1_label_token_empty (t : String) (ht : t ∈ EMOTIONS) (lookup : Lookup)
    (maxDepth : ℕ) (minWeight : ℚ) :
    build_graph lookup maxDepth minWeight [PNode.root t] [] [] 0 = [] := by
  unfold build_graph
  exact build_graph_aux_emotion_root ht lookup minWeight (maxDepth - 0) [] []
    (by intro p hp; simp at hp)

/-- Witness for C1 at the concrete label "love" with depth bound 3. -/
theorem C1_witness :
    build_graph (fun _ => none) 3 0 [PNode.root "love"] [] [] 0 = [] :=
  C1_label_token_empty "love" (by decide) (fun _ => none) 3 0

/-! ## Claim C2 -/

/-- C2, as stated, is false: the vectors A={joy:3}, B={joy:0}, C={joy:3}
do NOT smooth B to {joy:2}.  Interpolation mutates the message list in
place, so B is averaged against the already-smoothed A (value 2), giving
(2+0+3)/3 = 5/3. -/
theorem C2_counterexample :
    word_interpolation [[("joy", 3)], [("joy", 0)], [("joy", 3)]] ≠
      [[("joy", 2)], [("joy", 2)], [("joy", 2)]] ∧
    (word_interpolation [[("joy", 3)], [("joy", 0)], [("joy", 3)]]).getD 1 []
      = [("joy", 5/3)] := by
  constructor <;>
    norm_num [word_interpolation, List.range_succ, interpolationStep,
      interpolate_e_vector, keysOf, getOr0, List.dedup, assocGet, assocSet,
      List.getD, List.getLastD]

/-- C2 amended: interpolation preserves length and order, but entry i is
averaged against the CURRENT neighbor vectors at processing time (the left
neighbor, and for the last entry also the wrapped right neighbor, have
already been smoothed in place): A,B,C as above yield
[{joy:2},{joy:5/3},{joy:20/9}], and a 1-message conversation returns its
own vector unchanged. -/
theorem C2_interpolation_in_place :
    (∀ words : List EmoVec, (word_interpolation words).length = words.length) ∧
    word_interpolation [[("joy", 3)], [("joy", 0)], [("joy", 3)]] =
      [[("joy", 2)], [("joy", 5/3)], [("joy", 20/9)]] ∧
    (∀ v : EmoVec, word_interpolation [v] = [v]) := by
  refine ⟨?_, ?_, ?_⟩
  · intro words
    unfold word_interpolation
    rw [foldl_interpolationStep_len]
    simp
  · norm_num [word_interpolation, List.range_succ, interpolationStep,
      interpolate_e_vector, keysOf, getOr0, List.dedup, assocGet, assocSet,
      List.getD, List.getLastD]
  · intro v
    simp [word_interpolation, List.range_succ, interpolationStep,
      interpolate_self, List.getD, List.getLastD]

/-! ## Claim C3 -/

/-- C3, as stated, is false at the boundary: at the instant now = expiry
the session is NOT treated as over (the code tests expiry < now strictly),
so the new message is appended instead of starting a fresh session. -/
theorem C3_counterexample :
    is_conversation_over { messages := [], future_time := some 10 } 10 = false ∧
    add_message 5 { messages := [⟨"a", "m1"⟩], future_time := some 10 } 10
        (.msg ⟨"a", "m2"⟩) =
      .ok (none,
        { messages := [⟨"a", "m1"⟩, ⟨"a", "m2"⟩], future_time := some 15 }) := by
  decide

/-- C3 amended: add_message treats the session as over exactly when no
expiry exists or now > expiry STRICTLY (the boundary now = expiry counts
as still active); when over and at least one message is stored, that
message list is sealed and a fresh session holding only the new message is
started, with the expiry reset to now + tolerance. -/
theorem C3_session_over_strict (db : ClusterDB) (now : ℤ) :
    (is_conversation_over db now = true ↔
      db.future_time = none ∨ ∃ e, db.future_time = some e ∧ e < now) ∧
    (∀ (tol : ℤ) (m : Message), is_conversation_over db now = true →
      0 < db.messages.length →
      add_message tol db now (.msg m) =
        .ok (some db.messages,
          { messages := [m], future_time := some (now + tol) })) := by
  constructor
  · cases h : db.future_time with
    | none => simp [is_conversation_over, h]
    | some e => simp [is_conversation_over, h]
  · intro tol m hover hlen
    simp [add_message, hover, hlen, start_tolerance]

/-- Witness for C3 on a session of one message whose expiry 5 has passed
at time 10. -/
theorem C3_witness :
    add_message 3 { messages := [⟨"a", "m0"⟩], future_time := some 5 } 10
        (.msg ⟨"a", "m1"⟩) =
      .ok (some [⟨"a", "m0"⟩],
        { messages := [⟨"a", "m1"⟩], future_time := some 13 }) :=
  (C3_session_over_strict { messages := [⟨"a", "m0"⟩], future_time := some 5 }
    10).2 3 ⟨"a", "m1"⟩ (by decide) (by decide)

end Emotext
namespace Emotext

/-! ## Claim C4 -/

/-- A two-concept cycle: car relates to drive and drive back to car. -/
def cycleLookup : Lookup := fun n =>
  if n = "car" then some ⟨1, [⟨"car", "en", "drive", "en", "RelatedTo", 5⟩]⟩
  else if n = "drive" then some ⟨1, [⟨"drive", "en", "car", "en", "RelatedTo", 5⟩]⟩
  else none

/-- C4, as stated, is false: text_to_emotion starts the search with an
EMPTY visited set, not {token} — the root's own name is never recorded —
so on a cyclic graph the root concept "car" is expanded in round one
(recording only "drive") and then re-admitted to the round-two frontier. -/
theorem C4_counterexample :
    (build_graph_round cycleLookup 0 [PNode.root "car"] [] []).used =
      ["drive"] ∧
    (build_graph_round cycleLookup 0
        (build_graph_round cycleLookup 0 [PNode.root "car"] [] []).copy
        (build_graph_round cycleLookup 0 [PNode.root "car"] [] []).used
        (build_graph_round cycleLookup 0 [PNode.root "car"] [] []).emo).copy.map
      PNode.name = ["car"] := by
  decide

/-- C4 amended: the visited set starts EMPTY (so the root's own name can
be re-admitted through a cycle), but it grows monotonically, every
concept name already in it is never admitted to the next frontier again
(a node carrying such a name can only be an emotion-labelled survivor of
the current frontier), and every node newly admitted to a frontier has
its name recorded by the end of the round. -/
theorem C4_visited_blocks_readmission (lookup : Lookup) (minW : ℚ)
    (frontier : List PNode) (used : List String) (emo : EmoVec) :
    used ⊆ (build_graph_round lookup minW frontier used emo).used ∧
    (∀ n ∈ used, ∀ node ∈ (build_graph_round lookup minW frontier used emo).copy,
      node.name = n → node ∈ frontier) ∧
    (∀ node ∈ (build_graph_round lookup minW frontier used emo).copy,
      node ∈ frontier ∨
        node.name ∈ (build_graph_round lookup minW frontier used emo).used) := by
  refine ⟨?_, ?_, ?_⟩
  · exact round_aux_used_mono lookup minW frontier ⟨[], used, emo⟩
  · intro n hn node hnode hname
    rcases round_aux_copy_char lookup minW frontier ⟨[], used, emo⟩ node hnode
      with h | h | h
    · simp at h
    · exact h
    · exact absurd (hname ▸ hn) h.1
  · intro node hnode
    rcases round_aux_copy_char lookup minW frontier ⟨[], used, emo⟩ node hnode
      with h | h | h
    · simp at h
    · exact Or.inl h
    · exact Or.inr h.2

/-- Witness for C4: with "joy" already visited, the emotion token named
"joy" surviving the round must come from the frontier itself. -/
theorem C4_witness : PNode.root "joy" ∈ [PNode.root "joy"] :=
  (C4_visited_blocks_readmission (fun _ => none) 0 [PNode.root "joy"]
      ["joy"] []).2.1 "joy" (by decide) (PNode.root "joy") (by decide) rfl

/-! ## Claim C5 -/

/-- C5: a frontier token that is not emotion-labelled and whose lookup
fails (request error or zero relations) is simply skipped — the round is
identical to the round without it, wherever it sits in the frontier — and
a search whose root token has no relations returns the empty vector
through the normal path (Except.ok), not an error. -/
theorem C5_failed_lookup_prunes_only_branch :
    (∀ (lookup : Lookup) (minW : ℚ) (x : PNode) (pre post : List PNode)
      (acc : StepAcc), x.name ∉ EMOTIONS → lookup_failed lookup x.name = true →
      build_graph_round_aux lookup minW (pre ++ x :: post) acc =
        build_graph_round_aux lookup minW (pre ++ post) acc) ∧
    (∀ (lookup : Lookup) (maxDepth : ℕ) (minW : ℚ) (t : String),
      t ∉ EMOTIONS → lookup_failed lookup t = true →
      text_to_emotion lookup maxDepth minW [t] = .ok [[]]) := by
  constructor
  · intro lookup minW x pre post acc hx h
    induction pre generalizing acc with
    | nil =>
      show build_graph_round_aux lookup minW post
          (processToken lookup minW acc x) =
        build_graph_round_aux lookup minW post acc
      rw [processToken_failed lookup minW x hx h]
    | cons t rest ih =>
      exact ih (processToken lookup minW acc t)
  · intro lookup maxDepth minW t ht h
    have hb : build_graph lookup maxDepth minW [PNode.root t] [] [] 0 = [] := by
      unfold build_graph
      rw [Nat.sub_zero]
      cases maxDepth with
      | zero => rfl
      | succ n =>
        have hstep : build_graph_round lookup minW [PNode.root t] [] [] =
            ⟨[], [], []⟩ := by
          show build_graph_round_aux lookup minW [] (processToken lookup minW ⟨[], [], []⟩ (PNode.root t)) = ⟨[], [], []⟩
          rw [processToken_failed lookup minW (PNode.root t) ht h]
          rfl
        have hrec : build_graph_aux lookup minW (n + 1) [PNode.root t] [] [] =
            build_graph_aux lookup minW n
              (build_graph_round lookup minW [PNode.root t] [] []).copy
              (build_graph_round lookup minW [PNode.root t] [] []).used
              (build_graph_round lookup minW [PNode.root t] [] []).emo := rfl
        rw [hrec, hstep]
        exact build_graph_aux_empty lookup minW n [] []
    simp [text_to_emotion, hb]

/-- Witness for C5: a failing lookup on "car" is skipped ahead of a
remaining frontier token, and the whole search on "car" alone returns the
empty vector. -/
theorem C5_witness :
    build_graph_round_aux (fun _ => none) 0
        ([] ++ PNode.root "car" :: [PNode.root "tree"]) ⟨[], [], []⟩ =
      build_graph_round_aux (fun _ => none) 0 ([] ++ [PNode.root "tree"])
        ⟨[], [], []⟩ ∧
    text_to_emotion (fun _ => none) 3 0 ["car"] = .ok [[]] :=
  ⟨C5_failed_lookup_prunes_only_branch.1 (fun _ => none) 0 (PNode.root "car")
    [] [PNode.root "tree"] ⟨[], [], []⟩ (by decide) rfl,
   C5_failed_lookup_prunes_only_branch.2 (fun _ => none) 3 0 "car"
    (by decide) rfl⟩

/-! ## Claim C6 -/

/-- C6, as stated, is false: on the chain root "t" → "a" (weight 2) →
"joy" (weight 4), the code adds 4·1/1 + 2·1/2 = 5 to the vector — the
decay rank counts OUTWARD from the discovered terminal node — while the
claimed distance-from-root ranking 2·1/2 + 4·1/3 gives 7/3. -/
theorem C6_counterexample :
    calc_nodes_weight (PNode.node "joy" 4 (PNode.node "a" 2 (PNode.root "t")))
        "joy" [] 0 = 5 ∧
    spec_rank_weight
        (PNode.node "joy" 4 (PNode.node "a" 2 (PNode.root "t"))) = 7/3 ∧
    (processToken (fun _ => none) 0 ⟨[], [], []⟩
        (PNode.node "joy" 4 (PNode.node "a" 2 (PNode.root "t")))).emo =
      [("joy", 5)] ∧
    (5 : ℚ) ≠ 7/3 := by
  refine ⟨?_, ?_, ?_, by norm_num⟩ <;>
    norm_num [calc_nodes_weight, weightedSum, spec_rank_weight, chainToRoot,
      List.range_succ, processToken, PNode.name, EMOTIONS, dictAddWeight,
      assocGet, assocSet]

/-- C6 amended: the amount a terminal node adds to its label equals the
decayed sum over its ancestor chain with ranks counted from the DISCOVERED
NODE upward (the node itself at rank 0, factor 1/1; the root's weight
excluded), and contributions accumulate additively onto the label's
current value. -/
theorem C6_decay_from_terminal :
    (∀ (node : PNode) (e : String),
      calc_nodes_weight node e [] 0 = decaySum (chainToRoot node)) ∧
    (∀ (lookup : Lookup) (minW : ℚ) (acc : StepAcc) (tok : PNode),
      tok.name ∈ EMOTIONS →
      (processToken lookup minW acc tok).emo =
        dictAddWeight acc.emo tok.name (decaySum (chainToRoot tok))) ∧
    (∀ (d : EmoVec) (k : String) (w : ℚ),
      assocGet (dictAddWeight d k w) k = some ((assocGet d k).getD 0 + w)) := by
  refine ⟨calc_nodes_weight_decay, ?_, assocGet_dictAddWeight_self⟩
  intro lookup minW acc tok ht
  unfold processToken
  rw [if_pos ht, calc_nodes_weight_decay]

/-- Witness for C6: the terminal "joy" at depth 1 (weight 4) adds its
decayed chain sum on top of the existing entry. -/
theorem C6_witness :
    (processToken (fun _ => none) 0 ⟨[], [], [("joy", 1)]⟩
        (PNode.node "joy" 4 (PNode.root "t"))).emo =
      dictAddWeight [("joy", 1)] "joy"
        (decaySum (chainToRoot (PNode.node "joy" 4 (PNode.root "t")))) :=
  C6_decay_from_terminal.2.1 (fun _ => none) 0 ⟨[], [], [("joy", 1)]⟩
    (PNode.node "joy" 4 (PNode.root "t")) (by decide)

end Emotext
namespace Emotext

/-! ## Claim C7 -/

/-- C7: putting a word into the cache and fetching it returns exactly the
stored vector (an unconditional overwrite), and fetching an absent word
returns the miss signal none — fetch_word is total, the KeyError is
swallowed inside it. -/
theorem C7_cache_roundtrip :
    (∀ (cache : List (String × EmoVec)) (word : String) (v : EmoVec),
      fetch_word (add_word cache word v) word = some v) ∧
    (∀ (cache : List (String × EmoVec)) (word : String),
      word ∉ cache.map Prod.fst → fetch_word cache word = none) := by
  constructor
  · intro cache word v
    exact assocGet_assocSet_self cache word v
  · intro cache word h
    exact assocGet_of_not_mem_keys cache word h

/-- Witness for C7: a round-trip through a one-entry cache and a miss on
the same cache. -/
theorem C7_witness :
    fetch_word (add_word [("deck", [("fear", 1)])] "car" [("joy", 1)]) "car" =
      some [("joy", 1)] ∧
    fetch_word [("deck", [("fear", 1)])] "car" = none :=
  ⟨C7_cache_roundtrip.1 [("deck", [("fear", 1)])] "car" [("joy", 1)],
   C7_cache_roundtrip.2 [("deck", [("fear", 1)])] "car" (by decide)⟩

/-! ## Claim C8 -/

/-- C8: with tolerance 10, messages at times 0, 1 and 2 accumulate into
one session in insertion order, the expiry being reset to now + 10 at
every add; a second message at time 20 instead seals the one-message
session and starts afresh with only the new message. -/
theorem C8_clustering_scenarios :
    add_message 10 { messages := [], future_time := none } 0
        (.msg ⟨"a", "m1"⟩) =
      .ok (none, { messages := [⟨"a", "m1"⟩], future_time := some 10 }) ∧
    add_message 10 { messages := [⟨"a", "m1"⟩], future_time := some 10 } 1
        (.msg ⟨"a", "m2"⟩) =
      .ok (none,
        { messages := [⟨"a", "m1"⟩, ⟨"a", "m2"⟩], future_time := some 11 }) ∧
    add_message 10
        { messages := [⟨"a", "m1"⟩, ⟨"a", "m2"⟩], future_time := some 11 } 2
        (.msg ⟨"a", "m3"⟩) =
      .ok (none,
        { messages := [⟨"a", "m1"⟩, ⟨"a", "m2"⟩, ⟨"a", "m3"⟩],
          future_time := some 12 }) ∧
    add_message 10 { messages := [⟨"a", "m1"⟩], future_time := some 10 } 20
        (.msg ⟨"a", "m2"⟩) =
      .ok (some [⟨"a", "m1"⟩],
        { messages := [⟨"a", "m2"⟩], future_time := some 30 }) := by
  decide

/-! ## Claim C9 -/

/-- C9: normalizing a non-empty mapping of strictly positive scores
divides every entry by the total, the results sum to exactly 1 (rational
arithmetic), and no zero entry remains. -/
theorem C9_normalization (emotions : EmoVec) (hne : emotions ≠ [])
    (hpos : ∀ p ∈ emotions, 0 < p.2) :
    calc_percentages emotions =
      emotions.map
        (fun p => (p.1, p.2 / (emotions.map (fun q => q.2)).sum)) ∧
    ((calc_percentages emotions).map (fun p => p.2)).sum = 1 ∧
    (∀ p ∈ calc_percentages emotions, p.2 ≠ 0) := by
  have hfil : emotions.filter (fun p => p.2 != 0) = emotions := by
    rw [List.filter_eq_self]
    intro p hp
    simpa using ne_of_gt (hpos p hp)
  have hS : 0 < (emotions.map (fun q => q.2)).sum := by
    apply List.sum_pos
    · intro x hx
      obtain ⟨p, hp, rfl⟩ := List.mem_map.mp hx
      exact hpos p hp
    · simpa using hne
  have heq : calc_percentages emotions =
      emotions.map
        (fun p => (p.1, p.2 / (emotions.map (fun q => q.2)).sum)) := by
    simp [calc_percentages, hfil]
  refine ⟨heq, ?_, ?_⟩
  · rw [heq, List.map_map]
    have h2 : emotions.map
          ((fun p : String × ℚ => p.2) ∘
            (fun p : String × ℚ =>
              (p.1, p.2 / (emotions.map (fun q => q.2)).sum))) =
        (emotions.map (fun q => q.2)).map
          (fun x => x / (emotions.map (fun q => q.2)).sum) := by
      rw [List.map_map]
      rfl
    rw [h2, sum_map_div, div_self (ne_of_gt hS)]
  · intro p hp
    rw [heq] at hp
    obtain ⟨q, hq, rfl⟩ := List.mem_map.mp hp
    exact div_ne_zero (ne_of_gt (hpos q hq)) (ne_of_gt hS)

/-- Witness for C9: the two-entry vector {joy:1, fear:3} normalizes to
values summing to 1. -/
theorem C9_witness :
    ((calc_percentages [("joy", 1), ("fear", 3)]).map (fun p => p.2)).sum
      = 1 :=
  (C9_normalization [("joy", 1), ("fear", 3)] (by decide)
    (by norm_num)).2.1

/-! ## Claim C10 -/

/-- C10: handing the clusterer anything that is not a Message raises at
the isinstance guard before any mutation — the call returns the error
outcome and no new state, so the stored messages and expiry are
untouched. -/
theorem C10_reject_non_message (tol : ℤ) (db : ClusterDB) (now : ℤ)
    (d : String) :
    add_message tol db now (.other d) =
      .error "Only messages of type emotext.models.models.Message can be added." :=
  rfl

end Emotext
